import Mathlib

/-!
Verification of the retrieval / indexing / evaluation pipeline of a
RAG chatbot repository (retriever.py, indexer.py, evaluation.py,
config.py, app.py).  Python strings are embedded as lists of
characters, remote services (embedding inference, vector store,
evaluation library) as explicit function-valued parameters, and
exceptions as values of an explicit error type threaded through
Except.
-/

namespace RagCheck

/-- Python strings are modelled as lists of characters. -/
abbrev Str := List Char

/-- Errors raised by remote calls.  The repository itself defines no
exception class; sdkError stands for whatever the remote client
library raises, indexError for a Python IndexError, and
embeddingServiceError for the dedicated wrapper type promised by the
spec (modelled from the spec: no such class exists in the code). -/
inductive PyErr where
  | sdkError (msg : Str)
  | indexError (msg : Str)
  | embeddingServiceError (msg : Str)
deriving DecidableEq

/-- Boolean prefix test on character lists. -/
def pfxB : Str → Str → Bool
  | [], _ => true
  | _ :: _, [] => false
  | a :: p, b :: s => a == b && pfxB p s

/-- Index of the first occurrence of sep in s (Python str.find). -/
def firstOcc (sep : Str) : Str → Option Nat
  | [] => if pfxB sep [] then some 0 else none
  | c :: rest =>
    if pfxB sep (c :: rest) then some 0
    else (firstOcc sep rest).map (fun i => i + 1)

/-- Fuel-indexed worker for Python str.split: cut at each occurrence
of sep, left to right.  Fuel at least the length of the string is
always enough because sep is nonempty in every use. -/
def splitGo (sep : Str) : Nat → Str → List Str
  | 0, s => [s]
  | fuel + 1, s =>
    match firstOcc sep s with
    | none => [s]
    | some i => s.take i :: splitGo sep fuel (s.drop (i + sep.length))

/-- Python s.split(sep) for nonempty sep. -/
def splitOnL (sep s : Str) : List Str := splitGo sep s.length s

/-- Python sep.join(parts). -/
def intercalateL (sep : Str) : List Str → Str
  | [] => []
  | [x] => x
  | x :: xs => x ++ sep ++ intercalateL sep xs

/-- The decimal digit character for n < 10. -/
def digitChar (n : Nat) : Char := Char.ofNat (48 + n)

/-- Fuel-indexed decimal printer for naturals (most significant digit
first); fuel greater than n is always enough. -/
def natDigitsGo : Nat → Nat → Str
  | 0, _ => []
  | fuel + 1, n =>
    if n < 10 then [digitChar n]
    else natDigitsGo fuel (n / 10) ++ [digitChar (n % 10)]

/-- Python str(n) for a natural number. -/
def natDigits (n : Nat) : Str := natDigitsGo (n + 1) n

/-- Numeric value of a digit character. -/
def charVal (c : Char) : Nat := c.toNat - 48

/-- Read a decimal numeral (no validation; used on generated text). -/
def parseNat (s : Str) : Nat := s.foldl (fun a c => a * 10 + charVal c) 0

/-- Python str(k) for an integer. -/
def intStr (k : Int) : Str :=
  if k < 0 then '-' :: natDigits k.natAbs else natDigits k.natAbs

/-- Read an optionally negated decimal numeral. -/
def parseIntZ (s : Str) : Int :=
  match s with
  | [] => 0
  | c :: rest => if c = '-' then -(parseNat rest : Int) else (parseNat (c :: rest) : Int)

/-- Read an unsigned two-decimal fixed-point numeral as a count of
hundredths: the digits before the dot times 100 plus the two digits
after it. -/
def parseDec2Abs (s : Str) : Int :=
  let ip := s.takeWhile (fun c => c != '.')
  let fp := s.drop (ip.length + 1)
  ((parseNat ip * 100 + parseNat fp : Nat) : Int)

/-- Read an optionally negated two-decimal numeral, in hundredths. -/
def parseDec2 (s : Str) : Int :=
  match s with
  | [] => 0
  | c :: rest => if c = '-' then -(parseDec2Abs rest) else parseDec2Abs (c :: rest)

/-- Round q * 100 to the nearest integer, ties to even: the exact
rational abstraction of CPython float formatting with two decimals.
(A negative value rounding to zero is rendered without a sign here.) -/
def round2 (q : ℚ) : Int :=
  let a : Int := q.num * 100
  let d : Int := (q.den : Int)
  let f : Int := Int.ediv a d
  let r : Int := Int.emod a d
  if 2 * r < d then f
  else if d < 2 * r then f + 1
  else if Int.emod f 2 = 0 then f else f + 1

/-- Two-digit zero-padded fractional part. -/
def pad2 (m : Nat) : Str := [digitChar (m / 10), digitChar (m % 10)]

/-- Python f-string {q:.2f}: the score formatted to two decimals. -/
def format2 (q : ℚ) : Str :=
  let n := round2 q
  let m := n.natAbs
  (if n < 0 then ['-'] else []) ++ natDigits (m / 100) ++ '.' :: pad2 (m % 100)

/- ------------------------------------------------------------------
Data model of the retrieval path (retriever.py).
------------------------------------------------------------------ -/

/-- Stored metadata of one chunk: the dictionary written by the
indexer and returned with each Pinecone match (keys text, page,
source, each possibly absent). -/
structure Metadata where
  text : Option Str
  page : Option Int
  source : Option Str
deriving DecidableEq

/-- One similarity-search result: a score and the stored metadata. -/
structure Match where
  score : ℚ
  metadata : Metadata
deriving DecidableEq

/-- Python match.metadata.get with default the empty string. -/
def getText (m : Match) : Str := m.metadata.text.getD []

/-- Python match.metadata.get with default 0. -/
def getPage (m : Match) : Int := m.metadata.page.getD 0

/-- The remote inference service behind pc.inference.embed: takes the
model name, the inputs and the input_type and either returns one
vector per input or raises. -/
structure Inference where
  embed : Str → List Str → Str → Except PyErr (List (List ℚ))

/-- The remote vector index behind index.query: takes the query
vector and top_k and returns the ranked matches. -/
structure VecIndex where
  query : List ℚ → Nat → List Match

/-- config.py: EMBEDDING_MODEL = "llama-text-embed-v2". -/
def EMBEDDING_MODEL : Str := "llama-text-embed-v2".data

/-- config.py: RETRIEVAL_K = 4. -/
def RETRIEVAL_K : Nat := 4

/-- The input_type parameter for query embedding. -/
def queryT : Str := "query".data

/-- The input_type parameter for passage embedding. -/
def passageT : Str := "passage".data

/-- retriever.py embed_text: embed one query; response.data[0].values,
where indexing an empty response raises IndexError. -/
def embed_text (svc : Inference) (text : Str) : Except PyErr (List ℚ) :=
  match svc.embed EMBEDDING_MODEL [text] queryT with
  | .error e => .error e
  | .ok [] => .error (.indexError "list index out of range".data)
  | .ok (v :: _) => .ok v

/-- retriever.py search_documents: embed the query, then query the
index with top_k = k (k defaults to RETRIEVAL_K). -/
def search_documents (svc : Inference) (idx : VecIndex) (query : Str)
    (k : Nat := RETRIEVAL_K) : Except PyErr (List Match) :=
  match embed_text svc query with
  | .error e => .error e
  | .ok v => .ok (idx.query v k)

/-- The exact sentinel string of retrieve_context. -/
def sentinel : Str := "No relevant documentation found for this query.".data

/-- The exact separator joining formatted matches. -/
def sepStr : Str := "\n\n---\n\n".data

/-- The header opener of a formatted match. -/
def relTag : Str := "[Relevance: ".data

/-- The mid-header marker in front of the page number. -/
def pageTag : Str := "| Page ".data

/-- The header-to-text bridge closing the bracket. -/
def closeTag : Str := "]\n".data

/-- The blank between score and page marker. -/
def spaceStr : Str := " ".data

/-- retriever.py line 74: the f-string
[Relevance: {score:.2f} | Page {page + 1}]\n{text} for one match. -/
def fmtMatch (m : Match) : Str :=
  relTag ++ format2 m.score ++ spaceStr ++ pageTag
    ++ intStr (getPage m + 1) ++ closeTag ++ getText m

/-- retriever.py loop of lines 67-74: keep, in order, the formatted
form of every match whose text metadata is non-empty. -/
def buildResults : List Match → List Str
  | [] => []
  | m :: rest =>
    if (getText m).isEmpty then buildResults rest
    else fmtMatch m :: buildResults rest

/-- retriever.py lines 64-79, the part of retrieve_context after the
search call: sentinel on no matches, sentinel when nothing survives
the text filter, else the formatted results joined by the separator. -/
def formatMatches (ms : List Match) : Str :=
  if ms.isEmpty then sentinel
  else if (buildResults ms).isEmpty then sentinel
  else intercalateL sepStr (buildResults ms)

/-- retriever.py retrieve_context: the tool entry point takes only the
query; it searches with k = RETRIEVAL_K and formats the matches. -/
def retrieve_context (svc : Inference) (idx : VecIndex) (query : Str) :
    Except PyErr Str :=
  match search_documents svc idx query RETRIEVAL_K with
  | .error e => .error e
  | .ok ms => .ok (formatMatches ms)

/-- The rendering stated by the spec, written from its words: a header
line [Relevance: score to two decimals | Page stored-page-plus-one]
followed by a newline and the stored text. -/
def renderSpec (m : Match) : Str :=
  "[Relevance: ".data ++ format2 m.score ++ " | Page ".data
    ++ intStr (getPage m + 1) ++ "]".data ++ "\n".data ++ getText m

/-- The source-consumer parse of one segment, after app.py
parse_sources_from_tool_output (split at the first closing bracket)
refined with the numeric header reading the spec describes: strip
the [Relevance: opener, read the score up to the blank, strip
| Page and read the page number up to the closing bracket.  Returns
the score in hundredths and the displayed page number. -/
def parseSeg (seg : Str) : Option (Int × Int) :=
  if pfxB relTag seg then
    let r1 := seg.drop relTag.length
    let scoreStr := r1.takeWhile (fun c => c != ' ')
    let r2 := r1.drop (scoreStr.length + 1)
    if pfxB pageTag r2 then
      let r3 := r2.drop pageTag.length
      let pageStr := r3.takeWhile (fun c => c != ']')
      some (parseDec2 scoreStr, parseIntZ pageStr)
    else none
  else none

/-- app.py parse_sources_from_tool_output, header part: split the tool
output on the documented separator and parse each segment's header. -/
def parseOutput (out : Str) : List (Option (Int × Int)) :=
  (splitOnL sepStr out).map parseSeg

/- ------------------------------------------------------------------
Data model of the ingestion path (indexer.py).
------------------------------------------------------------------ -/

/-- One loaded chunk as produced by the splitter: page_content plus
the page/source entries of its metadata dictionary. -/
structure Doc where
  page_content : Str
  pageMeta : Option Int
  sourceMeta : Option Str
deriving DecidableEq

/-- One record upserted to the vector store. -/
structure Record where
  id : Str
  values : List ℚ
  metadata : Metadata
deriving DecidableEq

/-- indexer.py: the metadata dictionary assembled for one document
(text, page with default 0, source with default ""). -/
def docMeta (d : Doc) : Metadata :=
  { text := some d.page_content
    page := some (d.pageMeta.getD 0)
    source := some (d.sourceMeta.getD []) }

/-- indexer.py: the id f-string doc_{i + j}. -/
def docId (j : Nat) : Str := "doc_".data ++ natDigits j

/-- indexer.py: batch_size = 50. -/
def batchSize : Nat := 50

/-- The ids doc_i, doc_(i+1), ..., doc_(i+len-1). -/
def idsFrom : Nat → Nat → List Str
  | _, 0 => []
  | i, len + 1 => docId i :: idsFrom (i + 1) len

/-- The ids doc_0 .. doc_(n-1), one per ingested document. -/
def docIds (n : Nat) : List Str := (List.range n).map docId

/-- indexer.py embed_batch: one passage-intent inference call for the
whole batch, returning the vectors in order. -/
def embed_batch (svc : Inference) (texts : List Str) :
    Except PyErr (List (List ℚ)) :=
  svc.embed EMBEDDING_MODEL texts passageT

/-- indexer.py inner loop over enumerate(zip(batch, embeddings)):
record j of the batch starting at i gets id doc_(i + j). -/
def mkVectors (i : Nat) : List (Doc × List ℚ) → Nat → List Record
  | [], _ => []
  | (d, e) :: rest, j =>
    { id := docId (i + j), values := e, metadata := docMeta d }
      :: mkVectors i rest (j + 1)

/-- Decidable equality for Except outcomes, for concrete checks. -/
instance exceptDecEq {ε α : Type} [DecidableEq ε] [DecidableEq α] :
    DecidableEq (Except ε α)
  | .error e, .error f =>
    if h : e = f then .isTrue (by rw [h])
    else .isFalse (fun hh => h (by injection hh))
  | .error _, .ok _ => .isFalse (fun hh => by injection hh)
  | .ok _, .error _ => .isFalse (fun hh => by injection hh)
  | .ok a, .ok b =>
    if h : a = b then .isTrue (by rw [h])
    else .isFalse (fun hh => h (by injection hh))

/-- Observable outcome of one ingestion run: the records the store
committed (in upsert order), the progress counts printed, and the
Python return value — Unit for the None of index_documents, or the
propagated exception. -/
structure IngestResult where
  committed : List Record
  reported : List Nat
  result : Except PyErr Unit
deriving DecidableEq

/-- indexer.py index_documents batch loop, fuel-indexed (fuel at
least the number of documents is always enough).  n is
len(documents); i the running start index; b counts batches so that
failAt b models index.upsert raising on the b-th upsert call.  An
exception aborts the loop; records of earlier batches stay
committed. -/
def indexLoop (svc : Inference) (failAt : Nat → Option PyErr) (n : Nat) :
    Nat → List Doc → Nat → Nat → IngestResult
  | _, [], _, _ => { committed := [], reported := [], result := .ok () }
  | 0, _ :: _, _, _ => { committed := [], reported := [], result := .ok () }
  | fuel + 1, d :: ds, i, b =>
    let batch := (d :: ds).take batchSize
    match embed_batch svc (batch.map (fun dd => dd.page_content)) with
    | .error e => { committed := [], reported := [], result := .error e }
    | .ok embs =>
      let vectors := mkVectors i (batch.zip embs) 0
      match failAt b with
      | some e => { committed := [], reported := [], result := .error e }
      | none =>
        let rest :=
          indexLoop svc failAt n fuel ((d :: ds).drop batchSize)
            (i + batchSize) (b + 1)
        { committed := vectors ++ rest.committed
          reported := min (i + batchSize) n :: rest.reported
          result := rest.result }

/-- indexer.py index_documents: run the batch loop from the start; the
function is annotated -> None and returns nothing (Unit) on success. -/
def index_documents (svc : Inference) (failAt : Nat → Option PyErr)
    (documents : List Doc) : IngestResult :=
  indexLoop svc failAt documents.length documents.length documents 0 0

/-- An upsert oracle that never fails. -/
def noFail : Nat → Option PyErr := fun _ => none

/-- An inference service that always succeeds, one vector per input,
computed by embF. -/
def okSvc (embF : List Str → List (List ℚ)) : Inference :=
  ⟨fun _ inputs _ => .ok (embF inputs)⟩

/-- Python str.lower on the ASCII replies the prompt compares. -/
def strLower (s : Str) : Str := s.map Char.toLower

/-- The exact confirmation the gate accepts. -/
def yStr : Str := "y".data

/-- Outcome of the __main__ path of indexer.py. -/
inductive MainOutcome where
  | indexed (res : IngestResult)
  | cancelled
deriving DecidableEq

/-- indexer.py main, confirmation gate onward: index the chunks iff
confirm.lower() == "y", else print "Indexing cancelled." and stop. -/
def mainGate (svc : Inference) (failAt : Nat → Option PyErr)
    (chunks : List Doc) (confirm : Str) : MainOutcome :=
  if strLower confirm = yStr then .indexed (index_documents svc failAt chunks)
  else .cancelled

/-- Records written to the store by the __main__ path. -/
def outcomeCommitted : MainOutcome → List Record
  | .indexed r => r.committed
  | .cancelled => []

/- ------------------------------------------------------------------
Data model of the evaluation path (evaluation.py).
------------------------------------------------------------------ -/

/-- A Python value in the score dictionary of evaluate_response: a
(non-NaN) float, the float NaN, None, or a string. -/
inductive PyVal where
  | pnum (q : ℚ)
  | pnan
  | pnone
  | pstr (s : Str)
deriving DecidableEq

/-- The row dictionary result.to_pandas().iloc[0].to_dict(), in
column order. -/
abbrev ScoreRow := List (Str × PyVal)

/-- The external ragas evaluate call (with the marshalled dataset and
wrapped models) as a function of the question/answer/contexts triple:
it returns the score row or raises. -/
structure EvalLib where
  run : Str → Str → List Str → Except Str ScoreRow

/-- Dictionary key "faithfulness". -/
def faithKey : Str := "faithfulness".data

/-- Dictionary key "answer_relevancy". -/
def relKey : Str := "answer_relevancy".data

/-- Dictionary key "error". -/
def errKey : Str := "error".data

/-- evaluation.py NaN loop: every float NaN value becomes None; every
other value is kept. -/
def normalizeRow : ScoreRow → ScoreRow
  | [] => []
  | (k, v) :: rest =>
    (k, if v = PyVal.pnan then PyVal.pnone else v) :: normalizeRow rest

/-- evaluation.py evaluate_response: on success the NaN-normalized
score row; on any exception from the library the fixed error mapping
— the function itself never raises. -/
def evaluate_response (lib : EvalLib) (question answer : Str)
    (contexts : List Str) : ScoreRow :=
  match lib.run question answer contexts with
  | .ok scores => normalizeRow scores
  | .error e => [(errKey, .pstr e), (faithKey, .pnone), (relKey, .pnone)]

/-- Python dict lookup on the association-list model (keys in a score
row are distinct, so first hit is the value). -/
def rowGet (r : ScoreRow) (k : Str) : Option PyVal :=
  match r with
  | [] => none
  | (k2, v) :: rest => if k2 = k then some v else rowGet rest k

/- ------------------------------------------------------------------
Concrete instances used by witnesses and counterexamples.
------------------------------------------------------------------ -/

/-- A segment is split-clean for sep when no index of it starts an
occurrence of sep, not even one that runs over the end of the
segment into a following separator. -/
def segOkB (sep x : Str) : Bool :=
  (List.range x.length).all (fun i => !(pfxB sep (x.drop i ++ sep)))

/-- Does a PyErr value carry the dedicated embedding-wrapper type? -/
def isWrappedESE : PyErr → Bool
  | .embeddingServiceError _ => true
  | _ => false

/-- A healthy inference service returning one empty vector per input. -/
def wSvc : Inference := ⟨fun _ inputs _ => .ok (inputs.map (fun _ => []))⟩

/-- An embedding message for a failing service. -/
def boomMsg : Str := "connection reset".data

/-- An inference service whose every call raises the client error. -/
def failSvc : Inference := ⟨fun _ _ _ => .error (.sdkError boomMsg)⟩

/-- The score 0.83 of the spec scenario, as an exact rational. -/
def score083 : ℚ := Rat.mk' 83 100 (by decide) (by decide)

/-- The score 0.836, exactly representable, which rounds to 0.84. -/
def score0836 : ℚ := Rat.mk' 209 250 (by decide) (by decide)

/-- One half, an ordinary metric score. -/
def halfQ : ℚ := Rat.mk' 1 2 (by decide) (by decide)

/-- The stored match of the spec scenario: score 0.83, page 12. -/
def wMatch : Match :=
  { score := score083
    metadata := { text := some "x".data, page := some 12, source := none } }

/-- A match whose score needs rounding in the two-decimal header. -/
def mRound : Match :=
  { score := score0836
    metadata := { text := some "x".data, page := some 12, source := none } }

/-- A populated index returning the scenario match for every query. -/
def wIdx : VecIndex := ⟨fun _ _ => [wMatch]⟩

/-- An empty index: every similarity search has zero matches. -/
def wIdxEmpty : VecIndex := ⟨fun _ _ => []⟩

/-- An index that answers with a match for every top_k except
RETRIEVAL_K, exposing which k the caller passed. -/
def kProbe : VecIndex := ⟨fun _ k => if k = RETRIEVAL_K then [] else [wMatch]⟩

/-- The query of the spec scenario. -/
def wQuery : Str := "dependency injection".data

/-- One loaded chunk. -/
def wDoc : Doc := { page_content := "a".data, pageMeta := some 0, sourceMeta := none }

/-- A cardinality-preserving embedding function: one empty vector per
text. -/
def wEmbF : List Str → List (List ℚ) := fun ts => ts.map (fun _ => [])

/-- The exception a failing upsert raises. -/
def upErr : PyErr := .sdkError "upsert failed".data

/-- An upsert oracle failing on the very first batch. -/
def failFirst : Nat → Option PyErr := fun b => if b = 0 then some upErr else none

/-- An evaluation library that always raises. -/
def wLibFail : EvalLib := ⟨fun _ _ _ => .error "ragas unavailable".data⟩

/-- A score row with one refused (NaN) metric and one ordinary score. -/
def wRow : ScoreRow := [(faithKey, .pnan), (relKey, .pnum halfQ)]

/-- An evaluation library returning wRow. -/
def wLibOk : EvalLib := ⟨fun _ _ _ => .ok wRow⟩

/- ------------------------------------------------------------------
String lemmas: prefixes, first occurrence, split/join round trip.
------------------------------------------------------------------ -/

theorem pfxB_append_self : ∀ (p t : Str), pfxB p (p ++ t) = true
  | [], _ => rfl
  | a :: p, t => by simp [pfxB, pfxB_append_self p t]

theorem pfxB_exists : ∀ (p s : Str), pfxB p s = true → ∃ t, s = p ++ t
  | [], s, _ => ⟨s, rfl⟩
  | a :: p, [], h => by simp [pfxB] at h
  | a :: p, b :: s, h => by
    simp only [pfxB, Bool.and_eq_true, beq_iff_eq] at h
    obtain ⟨t, ht⟩ := pfxB_exists p s h.2
    exact ⟨t, by rw [h.1, ht]; rfl⟩

theorem pfxB_long : ∀ (p u v : Str), p.length ≤ u.length →
    pfxB p (u ++ v) = pfxB p u
  | [], _, _, _ => rfl
  | a :: p, [], v, h => by simp at h
  | a :: p, b :: u, v, h => by
    simp only [List.cons_append, pfxB, List.append_eq]
    rw [pfxB_long p u v (by simpa using h)]

theorem pfxB_extend (p u v : Str) (h : pfxB p u = true) :
    pfxB p (u ++ v) = true := by
  obtain ⟨t, ht⟩ := pfxB_exists p u h
  rw [ht, List.append_assoc]
  exact pfxB_append_self p (t ++ v)

theorem pfxB_nil_false (p : Str) (hp : p ≠ []) : pfxB p [] = false := by
  cases p with
  | nil => exact absurd rfl hp
  | cons a p => rfl

theorem firstOcc_eq_none (sep : Str) :
    ∀ (s : Str), (∀ i, pfxB sep (s.drop i) = false) → firstOcc sep s = none
  | [], h => by simpa [firstOcc] using h 0
  | c :: rest, h => by
    have h0 := h 0
    simp only [List.drop_zero] at h0
    have hrec := firstOcc_eq_none sep rest (fun i => by simpa using h (i + 1))
    simp [firstOcc, h0, hrec]

theorem firstOcc_eq_some (sep : Str) :
    ∀ (s : Str) (n : Nat), pfxB sep (s.drop n) = true →
      (∀ j, j < n → pfxB sep (s.drop j) = false) → firstOcc sep s = some n
  | [], 0, h1, _ => by simp only [List.drop_zero] at h1; simp [firstOcc, h1]
  | [], j + 1, h1, h2 => by
    have := h2 0 (Nat.succ_pos j)
    simp only [List.drop_nil, List.drop_zero] at h1 this
    rw [this] at h1
    exact absurd h1 (by simp)
  | c :: rest, 0, h1, _ => by
    simp only [List.drop_zero] at h1
    simp [firstOcc, h1]
  | c :: rest, m + 1, h1, h2 => by
    have h0 := h2 0 (Nat.succ_pos m)
    simp only [List.drop_zero] at h0
    have hrec := firstOcc_eq_some sep rest m (by simpa using h1)
      (fun j hj => by simpa using h2 (j + 1) (by omega))
    simp [firstOcc, h0, hrec]

theorem segOkB_spec (sep x : Str) (h : segOkB sep x = true) :
    ∀ i, i < x.length → pfxB sep (x.drop i ++ sep) = false := by
  intro i hi
  have := (List.all_eq_true.mp h) i (List.mem_range.mpr hi)
  simpa using this

theorem segOkB_drop (sep x : Str) (hsep : sep ≠ []) (h : segOkB sep x = true) :
    ∀ i, pfxB sep (x.drop i) = false := by
  intro i
  by_cases hi : i < x.length
  · by_contra hc
    have hc' : pfxB sep (x.drop i) = true := by
      cases hx : pfxB sep (x.drop i) with
      | false => exact absurd hx hc
      | true => rfl
    have := pfxB_extend sep (x.drop i) sep hc'
    rw [segOkB_spec sep x h i hi] at this
    exact absurd this (by simp)
  · rw [List.drop_eq_nil_of_le (by omega)]
    exact pfxB_nil_false sep hsep

theorem splitGo_no_occ (sep x : Str) (hsep : sep ≠ [])
    (h : segOkB sep x = true) : ∀ fuel, splitGo sep fuel x = [x] := by
  intro fuel
  have hocc : firstOcc sep x = none :=
    firstOcc_eq_none sep x (segOkB_drop sep x hsep h)
  cases fuel with
  | zero => rfl
  | succ f => simp [splitGo, hocc]

theorem firstOcc_boundary (sep x r : Str)
    (h : segOkB sep x = true) :
    firstOcc sep (x ++ (sep ++ r)) = some x.length := by
  apply firstOcc_eq_some
  · rw [List.drop_left]
    exact pfxB_append_self sep r
  · intro j hj
    rw [List.drop_append_of_le_length (by omega)]
    have hre : x.drop j ++ (sep ++ r) = (x.drop j ++ sep) ++ r := by
      rw [List.append_assoc]
    rw [hre, pfxB_long sep (x.drop j ++ sep) r (by simp [List.length_drop])]
    exact segOkB_spec sep x h j hj

theorem splitGo_cons (sep x r : Str)
    (h : segOkB sep x = true) (fuel : Nat) :
    splitGo sep (fuel + 1) (x ++ (sep ++ r)) = x :: splitGo sep fuel r := by
  have hocc := firstOcc_boundary sep x r h
  have htake : (x ++ (sep ++ r)).take x.length = x := List.take_left x (sep ++ r)
  have hdrop : (x ++ (sep ++ r)).drop (x.length + sep.length) = r := by
    have : x ++ (sep ++ r) = (x ++ sep) ++ r := by rw [List.append_assoc]
    rw [this]
    have hl : x.length + sep.length = (x ++ sep).length := by
      simp [List.length_append]
    rw [hl]
    exact List.drop_left (x ++ sep) r
  simp [splitGo, hocc, htake, hdrop]

theorem splitGo_intercalate (sep : Str) (hsep : sep ≠ []) :
    ∀ (segs : List Str), segs ≠ [] → (∀ x ∈ segs, segOkB sep x = true) →
      ∀ fuel, (intercalateL sep segs).length ≤ fuel →
        splitGo sep fuel (intercalateL sep segs) = segs
  | [], hne, _, _, _ => absurd rfl hne
  | [x], _, hok, fuel, _ => by
    simpa [intercalateL] using
      splitGo_no_occ sep x hsep (hok x (by simp)) fuel
  | x :: y :: rest, _, hok, fuel, hfuel => by
    have hx : segOkB sep x = true := hok x (by simp)
    have hne : (1 : Nat) ≤ sep.length := by
      cases sep with
      | nil => exact absurd rfl hsep
      | cons a s => simp
    have hI : intercalateL sep (x :: y :: rest)
        = x ++ (sep ++ intercalateL sep (y :: rest)) := by
      simp [intercalateL]
    rw [hI] at hfuel ⊢
    have hlen : (x ++ (sep ++ intercalateL sep (y :: rest))).length
        = x.length + sep.length + (intercalateL sep (y :: rest)).length := by
      simp [List.length_append]; omega
    cases fuel with
    | zero => omega
    | succ f =>
      rw [splitGo_cons sep x (intercalateL sep (y :: rest)) hx f]
      rw [splitGo_intercalate sep hsep (y :: rest) (by simp)
        (fun z hz => hok z (by simp [hz])) f (by omega)]

theorem splitOnL_intercalate (sep : Str) (hsep : sep ≠ [])
    (segs : List Str) (hne : segs ≠ [])
    (hok : ∀ x ∈ segs, segOkB sep x = true) :
    splitOnL sep (intercalateL sep segs) = segs :=
  splitGo_intercalate sep hsep segs hne hok _ (Nat.le_refl _)

/- ------------------------------------------------------------------
Numeral printing and parsing lemmas.
------------------------------------------------------------------ -/

theorem digitChar_toNat (m : Nat) (h : m < 10) : (digitChar m).toNat = 48 + m := by
  interval_cases m <;> decide

theorem charVal_digitChar (m : Nat) (h : m < 10) : charVal (digitChar m) = m := by
  simp [charVal, digitChar_toNat m h]

theorem natDigitsGo_digits : ∀ (fuel n : Nat), ∀ c ∈ natDigitsGo fuel n,
    48 ≤ c.toNat ∧ c.toNat ≤ 57
  | 0, n, c, hc => by simp [natDigitsGo] at hc
  | fuel + 1, n, c, hc => by
    by_cases h : n < 10
    · simp [natDigitsGo, h] at hc
      rw [hc, digitChar_toNat n h]
      omega
    · simp [natDigitsGo, h] at hc
      rcases hc with hc | hc
      · exact natDigitsGo_digits fuel (n / 10) c hc
      · rw [hc, digitChar_toNat _ (Nat.mod_lt n (by omega))]
        have := Nat.mod_lt n (show 0 < 10 by omega)
        omega

theorem natDigits_digits (n : Nat) : ∀ c ∈ natDigits n,
    48 ≤ c.toNat ∧ c.toNat ≤ 57 :=
  natDigitsGo_digits (n + 1) n

theorem natDigitsGo_ne_nil (fuel n : Nat) (h : 0 < fuel) :
    natDigitsGo fuel n ≠ [] := by
  cases fuel with
  | zero => omega
  | succ f =>
    by_cases hn : n < 10 <;> simp [natDigitsGo, hn]

theorem natDigits_ne_nil (n : Nat) : natDigits n ≠ [] :=
  natDigitsGo_ne_nil (n + 1) n (Nat.succ_pos n)

theorem parseNat_go : ∀ (fuel n : Nat), n < fuel →
    parseNat (natDigitsGo fuel n) = n
  | 0, n, h => by omega
  | fuel + 1, n, h => by
    by_cases hn : n < 10
    · simp [natDigitsGo, hn, parseNat, charVal_digitChar n hn]
    · have hdiv : n / 10 < fuel := by
        have := Nat.div_lt_self (show 0 < n by omega) (show 1 < 10 by omega)
        omega
      simp only [natDigitsGo, if_neg hn]
      rw [show parseNat (natDigitsGo fuel (n / 10) ++ [digitChar (n % 10)])
          = parseNat (natDigitsGo fuel (n / 10)) * 10 + charVal (digitChar (n % 10)) by
        simp [parseNat, List.foldl_append]]
      rw [parseNat_go fuel (n / 10) hdiv,
        charVal_digitChar _ (Nat.mod_lt n (by omega))]
      omega

theorem parseNat_natDigits (n : Nat) : parseNat (natDigits n) = n :=
  parseNat_go (n + 1) n (Nat.lt_succ_self n)

theorem natDigits_inj {a b : Nat} (h : natDigits a = natDigits b) : a = b := by
  have ha := parseNat_natDigits a
  rw [h, parseNat_natDigits] at ha
  omega

theorem parseIntZ_neg (r : Str) : parseIntZ ('-' :: r) = -(parseNat r : Int) := by
  simp [parseIntZ]

theorem parseDec2_neg (r : Str) : parseDec2 ('-' :: r) = -(parseDec2Abs r) := by
  simp [parseDec2]

theorem parseIntZ_intStr (k : Int) : parseIntZ (intStr k) = k := by
  by_cases hk : k < 0
  · have : intStr k = '-' :: natDigits k.natAbs := by simp [intStr, hk]
    rw [this, parseIntZ_neg, parseNat_natDigits]
    omega
  · obtain ⟨c, rest, hcr⟩ : ∃ c rest, natDigits k.natAbs = c :: rest := by
      cases hnd : natDigits k.natAbs with
      | nil => exact absurd hnd (natDigits_ne_nil _)
      | cons c rest => exact ⟨c, rest, rfl⟩
    have hc : ¬(c = '-') := by
      intro heq
      have hmem : c ∈ natDigits k.natAbs := by rw [hcr]; simp
      have hd := natDigits_digits k.natAbs c hmem
      rw [heq] at hd
      simp at hd
    have : intStr k = c :: rest := by simp [intStr, hk, hcr]
    rw [this]
    simp only [parseIntZ, if_neg hc]
    rw [← hcr, parseNat_natDigits]
    omega

theorem twAppend (P : Char → Bool) : ∀ (u : Str) (c : Char) (w : Str),
    (∀ a ∈ u, P a = true) → P c = false → (u ++ c :: w).takeWhile P = u
  | [], c, w, _, hc => by simp [List.takeWhile_cons, hc]
  | a :: u, c, w, hu, hc => by
    have ha := hu a (by simp)
    simp only [List.cons_append, List.takeWhile_cons, ha, if_pos]
    rw [twAppend P u c w (fun x hx => hu x (by simp [hx])) hc]

theorem dropPlusOne (u : Str) (c : Char) (w : Str) :
    (u ++ c :: w).drop (u.length + 1) = w := by
  have h1 : u ++ c :: w = (u ++ [c]) ++ w := by simp
  rw [h1]
  have h2 : u.length + 1 = (u ++ [c]).length := by simp
  rw [h2, List.drop_left]

theorem format2_chars (q : ℚ) : ∀ c ∈ format2 q,
    c = '-' ∨ c = '.' ∨ (48 ≤ c.toNat ∧ c.toNat ≤ 57) := by
  intro c hc
  simp only [format2, List.mem_append, List.mem_cons] at hc
  rcases hc with (h | h) | h | h
  · split at h
    · simp at h
      exact Or.inl h
    · simp at h
  · exact Or.inr (Or.inr (natDigits_digits _ c h))
  · exact Or.inr (Or.inl h)
  · simp only [pad2, List.mem_cons, List.not_mem_nil, or_false] at h
    rcases h with h | h <;> rw [h] <;>
      exact Or.inr (Or.inr (by
        rw [digitChar_toNat _ (by omega)]
        omega))

theorem format2_no_space (q : ℚ) : ∀ c ∈ format2 q, (c != ' ') = true := by
  intro c hc
  rcases format2_chars q c hc with h | h | h
  · rw [h]; decide
  · rw [h]; decide
  · simp only [bne_iff_ne, ne_eq]
    intro he
    rw [he] at h
    simp at h

theorem format2_no_dot_digits (a : Nat) : ∀ c ∈ natDigits a, (c != '.') = true := by
  intro c hc
  have h := natDigits_digits a c hc
  simp only [bne_iff_ne, ne_eq]
  intro he
  rw [he] at h
  simp at h

theorem intStr_no_rbracket (k : Int) : ∀ c ∈ intStr k, (c != ']') = true := by
  intro c hc
  have hcases : c = '-' ∨ (48 ≤ c.toNat ∧ c.toNat ≤ 57) := by
    by_cases hk : k < 0
    · simp only [intStr, if_pos hk, List.mem_cons] at hc
      rcases hc with h | h
      · exact Or.inl h
      · exact Or.inr (natDigits_digits _ c h)
    · simp only [intStr, if_neg hk] at hc
      exact Or.inr (natDigits_digits _ c hc)
  rcases hcases with h | h
  · rw [h]; decide
  · simp only [bne_iff_ne, ne_eq]
    intro he
    rw [he] at h
    simp at h

theorem parseNat_pad2 (m : Nat) (h : m < 100) : parseNat (pad2 m) = m := by
  simp only [pad2, parseNat, List.foldl_cons, List.foldl_nil]
  rw [charVal_digitChar _ (by omega), charVal_digitChar _ (Nat.mod_lt m (by omega))]
  omega

theorem parseDec2Abs_fmt (a f2 : Nat) (hf : f2 < 100) :
    parseDec2Abs (natDigits a ++ '.' :: pad2 f2) = ((a * 100 + f2 : Nat) : Int) := by
  simp only [parseDec2Abs]
  rw [twAppend _ (natDigits a) '.' (pad2 f2) (format2_no_dot_digits a) (by decide)]
  rw [dropPlusOne, parseNat_natDigits, parseNat_pad2 f2 hf]

theorem parseDec2_format2 (q : ℚ) : parseDec2 (format2 q) = round2 q := by
  have hm : (round2 q).natAbs % 100 < 100 := Nat.mod_lt _ (by omega)
  by_cases hn : round2 q < 0
  · have hsh : format2 q = '-' :: (natDigits ((round2 q).natAbs / 100)
        ++ '.' :: pad2 ((round2 q).natAbs % 100)) := by
      simp [format2, hn]
    rw [hsh, parseDec2_neg, parseDec2Abs_fmt _ _ hm]
    omega
  · have hsh : format2 q = natDigits ((round2 q).natAbs / 100)
        ++ '.' :: pad2 ((round2 q).natAbs % 100) := by
      simp [format2, hn]
    obtain ⟨c, rest, hcr⟩ : ∃ c rest,
        natDigits ((round2 q).natAbs / 100) = c :: rest := by
      cases hnd : natDigits ((round2 q).natAbs / 100) with
      | nil => exact absurd hnd (natDigits_ne_nil _)
      | cons c rest => exact ⟨c, rest, rfl⟩
    have hc : ¬(c = '-') := by
      intro heq
      have hmem : c ∈ natDigits ((round2 q).natAbs / 100) := by rw [hcr]; simp
      have hd := natDigits_digits _ c hmem
      rw [heq] at hd
      simp at hd
    rw [hsh, hcr]
    simp only [List.cons_append, parseDec2, if_neg hc]
    rw [← List.cons_append, ← hcr, parseDec2Abs_fmt _ _ hm]
    omega

theorem tagLen_drop (tag rest : Str) : (tag ++ rest).drop tag.length = rest :=
  List.drop_left tag rest

theorem parseSeg_fmtMatch (m : Match) :
    parseSeg (fmtMatch m) = some (round2 m.score, getPage m + 1) := by
  have hshape : fmtMatch m = relTag ++ (format2 m.score ++ ' '
      :: (pageTag ++ (intStr (getPage m + 1) ++ ']' :: '\n' :: getText m))) := by
    have hsp : spaceStr = [' '] := by decide
    have hct : closeTag = ']' :: ['\n'] := by decide
    simp [fmtMatch, hsp, hct, List.append_assoc]
  rw [hshape]
  simp only [parseSeg, pfxB_append_self relTag _, if_pos, tagLen_drop]
  rw [twAppend _ (format2 m.score) ' ' _ (format2_no_space m.score) (by decide)]
  rw [dropPlusOne]
  simp only [pfxB_append_self pageTag _, if_pos, tagLen_drop]
  rw [twAppend _ (intStr (getPage m + 1)) ']' _ (intStr_no_rbracket _) (by decide)]
  rw [parseDec2_format2, parseIntZ_intStr]

/- ------------------------------------------------------------------
Retrieval formatting lemmas.
------------------------------------------------------------------ -/

theorem buildResults_keep : ∀ (ms : List Match), (∀ m ∈ ms, getText m ≠ []) →
    buildResults ms = ms.map fmtMatch
  | [], _ => rfl
  | m :: rest, h => by
    have hm : (getText m).isEmpty = false := by
      cases hgt : getText m with
      | nil => exact absurd hgt (h m (by simp))
      | cons a t => rfl
    simp only [buildResults, hm, Bool.false_eq_true, if_false, List.map_cons]
    rw [buildResults_keep rest (fun x hx => h x (by simp [hx]))]

theorem buildResults_empty : ∀ (ms : List Match), (∀ m ∈ ms, getText m = []) →
    buildResults ms = []
  | [], _ => rfl
  | m :: rest, h => by
    have hm : (getText m).isEmpty = true := by rw [h m (by simp)]; rfl
    simp only [buildResults, hm, if_true]
    exact buildResults_empty rest (fun x hx => h x (by simp [hx]))

theorem formatMatches_sentinel (ms : List Match)
    (h : ms = [] ∨ ∀ m ∈ ms, getText m = []) : formatMatches ms = sentinel := by
  rcases h with h | h
  · rw [h]; rfl
  · cases ms with
    | nil => rfl
    | cons m rest =>
      have hb : buildResults (m :: rest) = [] := buildResults_empty _ h
      simp [formatMatches, hb]

theorem formatMatches_all (ms : List Match) (hne : ms ≠ [])
    (h : ∀ m ∈ ms, getText m ≠ []) :
    formatMatches ms = intercalateL sepStr (ms.map fmtMatch) := by
  have hb : buildResults ms = ms.map fmtMatch := buildResults_keep ms h
  cases ms with
  | nil => exact absurd rfl hne
  | cons m rest => simp [formatMatches, hb]

theorem retrieve_context_of_embed (svc : Inference) (idx : VecIndex)
    (q : Str) (v : List ℚ) (h : embed_text svc q = .ok v) :
    retrieve_context svc idx q = .ok (formatMatches (idx.query v RETRIEVAL_K)) := by
  simp [retrieve_context, search_documents, h]

/- ------------------------------------------------------------------
Indexer lemmas: ids, committed records, failure behaviour.
------------------------------------------------------------------ -/

theorem docId_inj {a b : Nat} (h : docId a = docId b) : a = b := by
  have h2 : natDigits a = natDigits b := by
    have := h
    simp only [docId] at this
    exact List.append_cancel_left this
  exact natDigits_inj h2

theorem idsFrom_map : ∀ (len i : Nat),
    idsFrom i len = (List.range len).map (fun j => docId (i + j))
  | 0, i => by simp [idsFrom]
  | len + 1, i => by
    rw [List.range_succ_eq_map]
    simp only [idsFrom, List.map_cons, Nat.add_zero, List.map_map]
    rw [idsFrom_map len (i + 1)]
    refine congrArg (fun t => docId i :: t) ?_
    apply List.map_congr_left
    intro j _
    simp only [Function.comp_apply]
    refine congrArg docId (by omega)

theorem idsFrom_append : ∀ (a i b : Nat),
    idsFrom i (a + b) = idsFrom i a ++ idsFrom (i + a) b
  | 0, i, b => by simp [idsFrom]
  | a + 1, i, b => by
    have h1 : a + 1 + b = (a + b) + 1 := by omega
    rw [h1]
    show docId i :: idsFrom (i + 1) (a + b) = _
    rw [idsFrom_append a (i + 1) b]
    have h2 : i + 1 + a = i + (a + 1) := by omega
    rw [h2]
    rfl

theorem mem_idsFrom : ∀ (len i : Nat) (x : Str),
    x ∈ idsFrom i len ↔ ∃ j, j < len ∧ x = docId (i + j) := by
  intro len i x
  rw [idsFrom_map]
  simp only [List.mem_map, List.mem_range]
  constructor
  · rintro ⟨j, hj, hx⟩
    exact ⟨j, hj, hx.symm⟩
  · rintro ⟨j, hj, hx⟩
    exact ⟨j, hj, hx.symm⟩

theorem idsFrom_nodup : ∀ (len i : Nat), (idsFrom i len).Nodup
  | 0, _ => List.nodup_nil
  | len + 1, i => by
    refine List.Nodup.cons ?_ (idsFrom_nodup len (i + 1))
    intro hmem
    obtain ⟨j, _, hj⟩ := (mem_idsFrom len (i + 1) (docId i)).mp hmem
    have := docId_inj hj
    omega

theorem docIds_eq_idsFrom (n : Nat) : docIds n = idsFrom 0 n := by
  rw [idsFrom_map]
  simp [docIds]

theorem docIds_nodup (n : Nat) : (docIds n).Nodup := by
  rw [docIds_eq_idsFrom]
  exact idsFrom_nodup n 0

theorem mkVectors_map_id : ∀ (pairs : List (Doc × List ℚ)) (i j : Nat),
    (mkVectors i pairs j).map (fun r => r.id) = idsFrom (i + j) pairs.length
  | [], _, _ => rfl
  | (d, e) :: rest, i, j => by
    simp only [mkVectors, List.map_cons, List.length_cons]
    show docId (i + j) :: _ = docId (i + j) :: idsFrom (i + j + 1) rest.length
    rw [mkVectors_map_id rest i (j + 1)]
    rfl

theorem mkVectors_length : ∀ (pairs : List (Doc × List ℚ)) (i j : Nat),
    (mkVectors i pairs j).length = pairs.length
  | [], _, _ => rfl
  | (d, e) :: rest, i, j => by
    simp only [mkVectors, List.length_cons, mkVectors_length rest i (j + 1)]

theorem indexLoop_cons (embF : List Str → List (List ℚ))
    (failAt : Nat → Option PyErr) (n fuel i b : Nat) (d : Doc) (ds : List Doc) :
    indexLoop (okSvc embF) failAt n (fuel + 1) (d :: ds) i b =
      (match failAt b with
       | some e =>
         ({ committed := [], reported := [], result := .error e } : IngestResult)
       | none =>
         { committed := mkVectors i (((d :: ds).take batchSize).zip
             (embF (((d :: ds).take batchSize).map (fun dd => dd.page_content)))) 0
             ++ (indexLoop (okSvc embF) failAt n fuel ((d :: ds).drop batchSize)
                  (i + batchSize) (b + 1)).committed
           reported := min (i + batchSize) n
             :: (indexLoop (okSvc embF) failAt n fuel ((d :: ds).drop batchSize)
                  (i + batchSize) (b + 1)).reported
           result := (indexLoop (okSvc embF) failAt n fuel ((d :: ds).drop batchSize)
                  (i + batchSize) (b + 1)).result }) := rfl

theorem indexLoop_ok (embF : List Str → List (List ℚ))
    (hE : ∀ ts, (embF ts).length = ts.length) (n : Nat) :
    ∀ (fuel : Nat) (rem : List Doc), rem.length ≤ fuel → ∀ (i b : Nat),
      (indexLoop (okSvc embF) noFail n fuel rem i b).committed.map (fun r => r.id)
          = idsFrom i rem.length ∧
      (indexLoop (okSvc embF) noFail n fuel rem i b).committed.length = rem.length ∧
      (indexLoop (okSvc embF) noFail n fuel rem i b).result = Except.ok ()
  | 0, rem, h, i, b => by
    have : rem = [] := List.eq_nil_of_length_eq_zero (by omega)
    rw [this]
    exact ⟨rfl, rfl, rfl⟩
  | fuel + 1, rem, h, i, b => by
    cases rem with
    | nil => exact ⟨rfl, rfl, rfl⟩
    | cons d ds =>
      have hb1 : 1 ≤ batchSize := by decide
      have hzl : (((d :: ds).take batchSize).zip
          (embF (((d :: ds).take batchSize).map (fun dd => dd.page_content)))).length
          = ((d :: ds).take batchSize).length := by
        rw [List.length_zip, hE, List.length_map, Nat.min_self]
      have hrec := indexLoop_ok embF hE n fuel ((d :: ds).drop batchSize)
        (by rw [List.length_drop]; omega) (i + batchSize) (b + 1)
      rw [indexLoop_cons]
      simp only [noFail]
      refine ⟨?_, ?_, hrec.2.2⟩
      · show (mkVectors i _ 0 ++ _).map (fun r => r.id) = _
        rw [List.map_append, mkVectors_map_id, hzl, hrec.1]
        by_cases hlen : (d :: ds).length ≤ batchSize
        · rw [List.take_of_length_le hlen, List.drop_eq_nil_of_le hlen]
          simp [idsFrom, Nat.add_zero]
        · have h50 : ((d :: ds).take batchSize).length = batchSize := by
            rw [List.length_take]; omega
          rw [h50, Nat.add_zero, List.length_drop]
          have := idsFrom_append batchSize i ((d :: ds).length - batchSize)
          rw [← this]
          refine congrArg (idsFrom i) (by omega)
      · show (mkVectors i _ 0 ++ _).length = _
        rw [List.length_append, mkVectors_length, hzl, hrec.2.1]
        rw [List.length_take, List.length_drop]
        omega

theorem indexLoop_fail (embF : List Str → List (List ℚ))
    (hE : ∀ ts, (embF ts).length = ts.length)
    (failAt : Nat → Option PyErr) (e : PyErr) (n : Nat) :
    ∀ (k fuel : Nat) (rem : List Doc) (i b : Nat),
      rem.length ≤ fuel →
      (∀ j, j < k → failAt (b + j) = none) →
      failAt (b + k) = some e →
      k * batchSize < rem.length →
      (indexLoop (okSvc embF) failAt n fuel rem i b).result = Except.error e ∧
      (indexLoop (okSvc embF) failAt n fuel rem i b).committed.length
          = k * batchSize ∧
      (indexLoop (okSvc embF) failAt n fuel rem i b).reported
          = (List.range k).map (fun t => min (i + (t + 1) * batchSize) n)
  | 0, fuel, rem, i, b, hfuel, hnone, hsome, hlt => by
    cases rem with
    | nil => simp at hlt
    | cons d ds =>
      cases fuel with
      | zero => simp at hfuel
      | succ f =>
        have hb : failAt b = some e := hsome
        rw [indexLoop_cons, hb]
        exact ⟨rfl, rfl, rfl⟩
  | k + 1, fuel, rem, i, b, hfuel, hnone, hsome, hlt => by
    cases rem with
    | nil => simp at hlt
    | cons d ds =>
      cases fuel with
      | zero => simp at hfuel
      | succ f =>
        have hb0 : failAt b = none := hnone 0 (by omega)
        have hbs : batchSize = 50 := rfl
        have hrec := indexLoop_fail embF hE failAt e n k f ((d :: ds).drop batchSize)
          (i + batchSize) (b + 1)
          (by rw [List.length_drop, hbs]; omega)
          (fun j hj => by
            have hmem := hnone (j + 1) (by omega)
            have hcongr : b + (j + 1) = b + 1 + j := by omega
            rw [hcongr] at hmem
            exact hmem)
          (by
            have hcongr : b + (k + 1) = b + 1 + k := by omega
            rw [← hcongr]
            exact hsome)
          (by
            rw [List.length_drop, hbs]
            rw [hbs] at hlt
            omega)
        rw [indexLoop_cons, hb0]
        refine ⟨hrec.1, ?_, ?_⟩
        · show (mkVectors i _ 0 ++ _).length = _
          rw [List.length_append, mkVectors_length, hrec.2.1]
          rw [List.length_zip, hE, List.length_map, Nat.min_self, List.length_take]
          rw [hbs] at hlt ⊢
          omega
        · show min (i + batchSize) n :: _ = _
          rw [hrec.2.2, List.range_succ_eq_map, List.map_cons, List.map_map]
          simp only [List.cons.injEq]
          refine ⟨by rw [hbs], ?_⟩
          apply List.map_congr_left
          intro t _
          simp only [Function.comp_apply, hbs, Nat.succ_eq_add_one]
          have ht : i + 50 + (t + 1) * 50 = i + (t + 1 + 1) * 50 := by omega
          rw [ht]

/- ------------------------------------------------------------------
Evaluation lemmas.
------------------------------------------------------------------ -/

theorem normalizeRow_spec : ∀ (r : ScoreRow),
    (normalizeRow r).map Prod.fst = r.map Prod.fst ∧
    ∀ p ∈ r.zip (normalizeRow r),
      (p.1.2 = PyVal.pnan → p.2.2 = PyVal.pnone) ∧
      (p.1.2 ≠ PyVal.pnan → p.2.2 = p.1.2)
  | [] => ⟨rfl, by simp⟩
  | (k, v) :: rest => by
    obtain ⟨h1, h2⟩ := normalizeRow_spec rest
    constructor
    · simp only [normalizeRow, List.map_cons, h1]
    · intro p hp
      simp only [normalizeRow, List.zip_cons_cons, List.mem_cons] at hp
      rcases hp with hp | hp
      · rw [hp]
        by_cases hv : v = PyVal.pnan
        · simp [hv]
        · simp [hv]
      · exact h2 p hp

/- ------------------------------------------------------------------
The spec-side rendering agrees with the f-string of the code.
------------------------------------------------------------------ -/

theorem renderSpec_eq (m : Match) : renderSpec m = fmtMatch m := by
  simp only [renderSpec, fmtMatch, relTag, pageTag, spaceStr, closeTag,
    List.append_assoc, List.cons_append, List.singleton_append, List.nil_append]

/- ------------------------------------------------------------------
Claims.
------------------------------------------------------------------ -/

/-- C1: for every non-empty list of matches with non-empty text
metadata, retrieve_context renders each retained match as the header
line [Relevance: score to two decimals | Page stored-page + 1]
followed by a newline and the stored text, and joins the matches
with exactly one blank line, the marker --- on its own line, and one
blank line. -/
theorem c1_render_join (svc : Inference) (idx : VecIndex) (q : Str)
    (v : List ℚ) (ms : List Match)
    (hemb : embed_text svc q = .ok v)
    (hms : idx.query v RETRIEVAL_K = ms)
    (hne : ms ≠ [])
    (htext : ∀ m ∈ ms, getText m ≠ []) :
    retrieve_context svc idx q = .ok (intercalateL sepStr (ms.map renderSpec)) := by
  rw [retrieve_context_of_embed svc idx q v hemb, hms,
    formatMatches_all ms hne htext]
  refine congrArg (fun t => Except.ok (intercalateL sepStr t)) ?_
  apply List.map_congr_left
  intro m _
  exact (renderSpec_eq m).symm

/-- C1 witness: the spec scenario, score 0.83 and stored page 12,
rendered through the tool entry point. -/
theorem c1_witness :
    (([wMatch] : List Match) ≠ [] ∧ ∀ m ∈ ([wMatch] : List Match), getText m ≠ []) ∧
      retrieve_context wSvc wIdx wQuery
        = .ok (intercalateL sepStr (([wMatch] : List Match).map renderSpec)) :=
  ⟨⟨by decide, by decide⟩,
    c1_render_join wSvc wIdx wQuery [] [wMatch] rfl rfl (by decide) (by decide)⟩

/-- C2: with zero matches, or with every match lacking text metadata,
retrieve_context returns exactly the sentinel string, never an empty
string and never an exception. -/
theorem c2_sentinel (svc : Inference) (idx : VecIndex) (q : Str) (v : List ℚ)
    (hemb : embed_text svc q = .ok v)
    (h : idx.query v RETRIEVAL_K = []
      ∨ ∀ m ∈ idx.query v RETRIEVAL_K, getText m = []) :
    retrieve_context svc idx q = .ok sentinel := by
  rw [retrieve_context_of_embed svc idx q v hemb]
  exact congrArg Except.ok (formatMatches_sentinel _ h)

/-- C2 witness: a query against an empty index yields the sentinel. -/
theorem c2_witness : retrieve_context wSvc wIdxEmpty wQuery = .ok sentinel :=
  c2_sentinel wSvc wIdxEmpty wQuery [] rfl (Or.inl rfl)

/-- C3 counterexample: index_documents returns None (Unit) on success
and, when the first upsert raises, propagates the exception having
committed nothing; no count of written records is returned in either
case. -/
theorem c3_counterexample :
    (index_documents (okSvc wEmbF) failFirst [wDoc]).result = Except.error upErr ∧
    (index_documents (okSvc wEmbF) failFirst [wDoc]).committed = [] ∧
    (index_documents (okSvc wEmbF) noFail [wDoc]).result = Except.ok () := by
  decide

/-- C3 amended: index_documents returns None rather than a count; when
the upsert of batch f raises (all earlier upserts succeeding), the
exception propagates, exactly the 50 * f records of the earlier
batches stay committed, and the printed progress lines report the
running counts 50 * (b + 1) for b < f. -/
theorem c3_amended (embF : List Str → List (List ℚ))
    (hE : ∀ ts, (embF ts).length = ts.length)
    (failAt : Nat → Option PyErr) (e : PyErr) (f : Nat) (docs : List Doc)
    (hnone : ∀ j, j < f → failAt j = none)
    (hf : failAt f = some e)
    (hlt : f * batchSize < docs.length) :
    (index_documents (okSvc embF) failAt docs).result = Except.error e ∧
    (index_documents (okSvc embF) failAt docs).committed.length = f * batchSize ∧
    (index_documents (okSvc embF) failAt docs).reported
        = (List.range f).map (fun t => min ((t + 1) * batchSize) docs.length) := by
  have h := indexLoop_fail embF hE failAt e docs.length f docs.length docs 0 0
    (Nat.le_refl _) (fun j hj => by rw [Nat.zero_add]; exact hnone j hj)
    (by rw [Nat.zero_add]; exact hf) hlt
  refine ⟨h.1, h.2.1, ?_⟩
  show (indexLoop (okSvc embF) failAt docs.length docs.length docs 0 0).reported = _
  rw [h.2.2]
  apply List.map_congr_left
  intro t _
  refine congrArg (fun v => min v docs.length) (by omega)

/-- C3 amended witness: a failure on the very first batch propagates
with zero records committed and nothing reported. -/
theorem c3_amended_witness :
    (failFirst 0 = some upErr ∧ 0 * batchSize < ([wDoc] : List Doc).length) ∧
    ((index_documents (okSvc wEmbF) failFirst [wDoc]).result = Except.error upErr ∧
     (index_documents (okSvc wEmbF) failFirst [wDoc]).committed.length
        = 0 * batchSize ∧
     (index_documents (okSvc wEmbF) failFirst [wDoc]).reported
        = (List.range 0).map (fun t => min ((t + 1) * batchSize)
            ([wDoc] : List Doc).length)) :=
  ⟨⟨rfl, by decide⟩,
    c3_amended wEmbF (fun ts => by simp [wEmbF]) failFirst upErr 0 [wDoc]
      (fun j hj => absurd hj (Nat.not_lt_zero j)) rfl (by decide)⟩

/-- C4 counterexample: a stored score of 0.836 on page 12 is recovered
from the formatted output as 0.84 (in hundredths, 84) on displayed
page 13 — neither the stored score nor the stored page number. -/
theorem c4_counterexample :
    parseOutput (formatMatches [mRound]) = [some (84, 13)] ∧
    84 * ((mRound.score.den : Int)) ≠ mRound.score.num * 100 ∧
    (13 : Int) ≠ getPage mRound := by
  decide

/-- C4 amended: for matches with non-empty texts whose formatted
segments do not interfere with the separator, splitting the output
of retrieve_context on the separator and parsing each header
recovers, in the stored order, each score rounded to two decimals
(as hundredths) and each stored page number plus one. -/
theorem c4_roundtrip (svc : Inference) (idx : VecIndex) (q : Str)
    (v : List ℚ) (ms : List Match)
    (hemb : embed_text svc q = .ok v)
    (hms : idx.query v RETRIEVAL_K = ms)
    (hne : ms ≠ [])
    (htext : ∀ m ∈ ms, getText m ≠ [])
    (hseg : ∀ m ∈ ms, segOkB sepStr (fmtMatch m) = true) :
    ∃ out, retrieve_context svc idx q = .ok out ∧
      parseOutput out = ms.map (fun m => some (round2 m.score, getPage m + 1)) := by
  refine ⟨formatMatches ms, ?_, ?_⟩
  · rw [retrieve_context_of_embed svc idx q v hemb, hms]
  · rw [formatMatches_all ms hne htext]
    unfold parseOutput
    rw [splitOnL_intercalate sepStr (by decide) (ms.map fmtMatch)
      (fun hmap => hne (by simpa using hmap))
      (fun x hx => by
        obtain ⟨m, hm, hfx⟩ := List.mem_map.mp hx
        rw [← hfx]
        exact hseg m hm)]
    rw [List.map_map]
    apply List.map_congr_left
    intro m _
    exact parseSeg_fmtMatch m

/-- C4 amended witness: the scenario match, score 0.83 page 12, is
recovered as (83 hundredths, page 13). -/
theorem c4_witness :
    (([wMatch] : List Match) ≠ [] ∧
      (∀ m ∈ ([wMatch] : List Match), getText m ≠ []) ∧
      (∀ m ∈ ([wMatch] : List Match), segOkB sepStr (fmtMatch m) = true)) ∧
    ∃ out, retrieve_context wSvc wIdx wQuery = .ok out ∧
      parseOutput out = ([wMatch] : List Match).map
        (fun m => some (round2 m.score, getPage m + 1)) :=
  ⟨⟨by decide, by decide, by decide⟩,
    c4_roundtrip wSvc wIdx wQuery [] [wMatch] rfl rfl (by decide) (by decide)
      (by decide)⟩

/-- C5 counterexample: against an index that has matches for every
top_k except RETRIEVAL_K, the tool entry point retrieve_context can
only produce the sentinel — its k is fixed at RETRIEVAL_K and no call
can override it — while search_documents called with k = 5 does reach
those matches. -/
theorem c5_counterexample :
    retrieve_context wSvc kProbe wQuery = .ok sentinel ∧
    search_documents wSvc kProbe wQuery 5 = .ok [wMatch] ∧
    search_documents wSvc kProbe wQuery = .ok [] := by
  decide

/-- C5 amended: k defaults to RETRIEVAL_K and is overridable per call
of search_documents, but the tool-call entry point retrieve_context
accepts no k and always searches with k = RETRIEVAL_K. -/
theorem c5_k_fixed (svc : Inference) (idx : VecIndex) (q : Str) (k : Nat) :
    search_documents svc idx q = search_documents svc idx q RETRIEVAL_K ∧
    (∀ v, embed_text svc q = .ok v → search_documents svc idx q k = .ok (idx.query v k)) ∧
    retrieve_context svc idx q = (search_documents svc idx q RETRIEVAL_K).map formatMatches := by
  refine ⟨rfl, ?_, ?_⟩
  · intro v h
    simp [search_documents, h]
  · cases h : embed_text svc q <;> simp [retrieve_context, search_documents, h, Except.map]

/-- C5 amended witness: the probing index at k = 5. -/
theorem c5_witness :
    search_documents wSvc kProbe wQuery 5 = .ok (kProbe.query [] 5) ∧
    retrieve_context wSvc kProbe wQuery
      = (search_documents wSvc kProbe wQuery RETRIEVAL_K).map formatMatches :=
  ⟨(c5_k_fixed wSvc kProbe wQuery 5).2.1 [] rfl,
    (c5_k_fixed wSvc kProbe wQuery 5).2.2⟩

/-- C6 counterexample: a client failure of the remote embed call
reaches the caller of embed_text as the raw client exception, which
is not an EmbeddingServiceError — the code base defines no such
wrapper. -/
theorem c6_counterexample :
    embed_text failSvc wQuery = Except.error (PyErr.sdkError boomMsg) ∧
    isWrappedESE (PyErr.sdkError boomMsg) = false :=
  ⟨rfl, rfl⟩

/-- C6 amended: a failure of the remote embedding call propagates to
the caller unchanged, from embed_text and from embed_batch alike —
never converted to a dedicated error type and never replaced by
zero-vectors. -/
theorem c6_propagate (svc : Inference) (t : Str) (ts : List Str) (e1 e2 : PyErr)
    (h1 : svc.embed EMBEDDING_MODEL [t] queryT = .error e1)
    (h2 : svc.embed EMBEDDING_MODEL ts passageT = .error e2) :
    embed_text svc t = .error e1 ∧ embed_batch svc ts = .error e2 := by
  constructor
  · simp [embed_text, h1]
  · simp [embed_batch, h2]

/-- C6 amended witness: the always-failing service. -/
theorem c6_witness :
    embed_text failSvc wQuery = .error (PyErr.sdkError boomMsg) ∧
    embed_batch failSvc [wQuery] = .error (PyErr.sdkError boomMsg) :=
  c6_propagate failSvc wQuery [wQuery] _ _ rfl rfl

/-- C7: when the external evaluation library raises, evaluate_response
returns a mapping in which both metric keys are present and set to
None and an error field carries the message — the exception never
propagates. -/
theorem c7_never_raises (lib : EvalLib) (q a : Str) (c : List Str) (e : Str)
    (h : lib.run q a c = .error e) :
    rowGet (evaluate_response lib q a c) faithKey = some PyVal.pnone ∧
    rowGet (evaluate_response lib q a c) relKey = some PyVal.pnone ∧
    rowGet (evaluate_response lib q a c) errKey = some (PyVal.pstr e) := by
  simp only [evaluate_response, h]
  refine ⟨?_, ?_, by simp [rowGet]⟩
  · simp [rowGet]
    decide
  · simp [rowGet]
    decide

/-- C7 witness: a failing library stub. -/
theorem c7_witness :
    rowGet (evaluate_response wLibFail wQuery [] []) faithKey = some PyVal.pnone ∧
    rowGet (evaluate_response wLibFail wQuery [] []) relKey = some PyVal.pnone ∧
    rowGet (evaluate_response wLibFail wQuery [] []) errKey
      = some (PyVal.pstr "ragas unavailable".data) :=
  c7_never_raises wLibFail wQuery [] [] "ragas unavailable".data rfl

/-- C8: every float NaN in the score mapping is normalized to None —
never to a numeric zero — and every non-NaN value is kept unchanged,
keys and order preserved. -/
theorem c8_nan_to_none (lib : EvalLib) (q a : Str) (c : List Str)
    (scores : ScoreRow) (h : lib.run q a c = .ok scores) :
    (evaluate_response lib q a c).map Prod.fst = scores.map Prod.fst ∧
    ∀ p ∈ scores.zip (evaluate_response lib q a c),
      (p.1.2 = PyVal.pnan → p.2.2 = PyVal.pnone ∧ p.2.2 ≠ PyVal.pnum 0) ∧
      (p.1.2 ≠ PyVal.pnan → p.2.2 = p.1.2) := by
  simp only [evaluate_response, h]
  obtain ⟨h1, h2⟩ := normalizeRow_spec scores
  refine ⟨h1, fun p hp => ⟨fun hn => ⟨(h2 p hp).1 hn, ?_⟩, (h2 p hp).2⟩⟩
  rw [(h2 p hp).1 hn]
  intro hc
  cases hc

/-- C8 witness: a row with a NaN faithfulness and a 0.5 relevancy. -/
theorem c8_witness :
    (evaluate_response wLibOk wQuery [] []).map Prod.fst = wRow.map Prod.fst ∧
    ∀ p ∈ wRow.zip (evaluate_response wLibOk wQuery [] []),
      (p.1.2 = PyVal.pnan → p.2.2 = PyVal.pnone ∧ p.2.2 ≠ PyVal.pnum 0) ∧
      (p.1.2 ≠ PyVal.pnan → p.2.2 = p.1.2) :=
  c8_nan_to_none wLibOk wQuery [] [] wRow rfl

/-- C9: ingesting n documents in one run assigns the j-th document
overall the id doc_j — across batch boundaries — so the assigned ids
are exactly doc_0 .. doc_(n-1), pairwise distinct, and a re-run on
identical input reproduces them. -/
theorem c9_ids (embF : List Str → List (List ℚ))
    (hE : ∀ ts, (embF ts).length = ts.length) (docs : List Doc) :
    (index_documents (okSvc embF) noFail docs).committed.map (fun r => r.id)
        = docIds docs.length ∧
    (docIds docs.length).Nodup := by
  have h := indexLoop_ok embF hE docs.length docs.length docs (Nat.le_refl _) 0 0
  refine ⟨?_, docIds_nodup docs.length⟩
  show (indexLoop (okSvc embF) noFail docs.length docs.length docs 0 0).committed.map
      (fun r => r.id) = docIds docs.length
  rw [h.1, docIds_eq_idsFrom]

/-- C9 witness: ingesting 51 documents crosses one batch boundary and
still yields doc_0 .. doc_50. -/
theorem c9_witness :
    (index_documents (okSvc wEmbF) noFail (List.replicate 51 wDoc)).committed.map
        (fun r => r.id) = docIds (List.replicate 51 wDoc).length ∧
    (docIds (List.replicate 51 wDoc).length).Nodup :=
  c9_ids wEmbF (fun ts => by simp [wEmbF]) (List.replicate 51 wDoc)

/-- C10: the ingestion CLI writes to the store iff the operator reply,
lowercased, is exactly "y"; any other reply — "yes" included —
cancels with no upsert. -/
theorem c10_gate (embF : List Str → List (List ℚ))
    (hE : ∀ ts, (embF ts).length = ts.length)
    (chunks : List Doc) (confirm : Str) (hne : chunks ≠ []) :
    (outcomeCommitted (mainGate (okSvc embF) noFail chunks confirm) ≠ []
      ↔ strLower confirm = yStr) ∧
    outcomeCommitted (mainGate (okSvc embF) noFail chunks "yes".data) = [] := by
  constructor
  · constructor
    · intro h
      by_contra hc
      rw [mainGate, if_neg hc] at h
      exact h rfl
    · intro h
      rw [mainGate, if_pos h]
      show (index_documents (okSvc embF) noFail chunks).committed ≠ []
      intro hnil
      have hlen := (indexLoop_ok embF hE chunks.length chunks.length chunks
        (Nat.le_refl _) 0 0).2.1
      have hnil2 : (indexLoop (okSvc embF) noFail chunks.length chunks.length
          chunks 0 0).committed = [] := hnil
      rw [hnil2] at hlen
      exact hne (List.eq_nil_of_length_eq_zero hlen.symm)
  · rw [mainGate, if_neg (show ¬(strLower "yes".data = yStr) by decide)]
    rfl

/-- C10 witness: one chunk, reply "YES": lowercased it is "yes", not
"y", and nothing is committed. -/
theorem c10_witness :
    (([wDoc] : List Doc) ≠ []) ∧
    ((outcomeCommitted (mainGate (okSvc wEmbF) noFail [wDoc] "YES".data) ≠ []
      ↔ strLower "YES".data = yStr) ∧
     outcomeCommitted (mainGate (okSvc wEmbF) noFail [wDoc] "yes".data) = []) :=
  ⟨by decide,
    c10_gate wEmbF (fun ts => by simp [wEmbF]) [wDoc] "YES".data (by decide)⟩

end RagCheck
